import Mathlib

/-!
Verification development for the function-dependency resolution subsystem of
the MeTTa-AI-Assistant backend: the call/definition extractor
(`app/core/chunker/function_analyzer.py`), the batch dependency resolver
(`app/services/dependency_resolver.py`) and the query-time dependency
expander (`app/rag/generator/rag_generator.py`, `_expand_dependencies`).

Python values are embedded as follows: MongoDB documents become Lean
structures whose optional fields are `Option` (with `none` standing for a
missing or null field); Python dicts preserving insertion order become
association lists with first-key lookup and replace-first-or-append update;
Python sets are reasoned about through list membership; raised exceptions
become `Except` values.
-/

namespace MettaAssistant

/-- Node kinds of the MeTTa syntax tree.  Modelled from the spec: the parser
module `metta_ast_parser` is not part of the sources under review; §3 of the
specification fixes the tag set as WordToken, ExpressionGroup, CallGroup,
RuleGroup, Literal and further leaf kinds (collapsed here into `other`). -/
inductive SyntaxNodeType where
  | wordToken
  | expressionGroup
  | callGroup
  | ruleGroup
  | literal
  | other
deriving DecidableEq

/-- A node of the parsed tree.  Modelled from the spec: `node_type` is the
tagged kind, `parsed_text` the raw text of leaf tokens, `sub_nodes` the
ordered children (a pure tree, §3 of the specification). -/
inductive SyntaxNode where
  | mk (node_type : SyntaxNodeType) (parsed_text : String) (sub_nodes : List SyntaxNode)

def SyntaxNode.node_type : SyntaxNode → SyntaxNodeType
  | .mk t _ _ => t

def SyntaxNode.parsed_text : SyntaxNode → String
  | .mk _ s _ => s

def SyntaxNode.sub_nodes : SyntaxNode → List SyntaxNode
  | .mk _ _ l => l

/-- Decidable equality for syntax nodes. -/
def SyntaxNode.beq : SyntaxNode → SyntaxNode → Bool
  | .mk t s l, .mk t' s' l' =>
    t = t' && s = s' && beqList l l'
where beqList : List SyntaxNode → List SyntaxNode → Bool
  | [], [] => true
  | a :: as, b :: bs => SyntaxNode.beq a b && beqList as bs
  | _, _ => false

/-- Parse failures are carried as messages; the Python parser raises. -/
abbrev ParseErr := String

/-- A parser: `metta_ast_parser.parse` returns a forest of top-level nodes or
raises.  Modelled from the spec (§4.1): the module itself is not in the
sources under review, so it is kept abstract as a function from source text
to either a forest or an error. -/
abbrev Parser := String → Except ParseErr (List SyntaxNode)

/-- `BUILTIN_FUNCTIONS` from `function_analyzer.py`: the static set of MeTTa
built-ins excluded from dependency tracking. -/
def BUILTIN_FUNCTIONS : List String :=
  ["match", "case", "if", "let", "let*", "chain",
   "+", "-", "*", "/", "mod", "//",
   "==", "!=", "<", ">", "<=", ">=",
   "and", "or", "not",
   "car", "cdr", "cons", "collapse", "superpose",
   "get-type", "get-metatype",
   "add-atom", "remove-atom", "get-atoms",
   "import!", "bind!", "pragma!", "assertEqual",
   "empty", "Error", "True", "False",
   "filter", "map", "foldl", "foldr", "zip", "unify"]

/-- `is_builtin_function`: membership in `BUILTIN_FUNCTIONS`. -/
def is_builtin_function (func_name : String) : Bool :=
  func_name ∈ BUILTIN_FUNCTIONS

/-- The head scan of `_extract_calls_from_node`: iterate over the children and
stop at the first WordToken, yielding its `parsed_text` (the Python loop
breaks at the first WordToken child whatever its position). -/
def firstWordTokenText : List SyntaxNode → Option String
  | [] => none
  | n :: rest =>
    if n.node_type = SyntaxNodeType.wordToken then some n.parsed_text
    else firstWordTokenText rest

/-- Python `s.startswith("$")`: the first character is the variable sigil. -/
def startsWithSigil (s : String) : Bool :=
  s.data.head? = some '$'

/-- The names contributed at one CallGroup/ExpressionGroup node itself:
the first WordToken child's text when it is nonempty and carries no `$`
sigil (`_extract_calls_from_node`, head part). -/
def headCalls (node_type : SyntaxNodeType) (sub_nodes : List SyntaxNode) : List String :=
  if node_type = SyntaxNodeType.callGroup ∨ node_type = SyntaxNodeType.expressionGroup then
    if sub_nodes.isEmpty then []
    else
      match firstWordTokenText sub_nodes with
      | some func_name =>
        if func_name ≠ "" ∧ ¬ startsWithSigil func_name then [func_name] else []
      | none => []
  else []

mutual
/-- `_extract_calls_from_node`: collect the head candidate of a group node and
recurse into all children.  The Python accumulator is a set; the list
collected here is read up to membership. -/
def extract_calls_from_node : SyntaxNode → List String
  | .mk t _ subs => headCalls t subs ++ extract_calls_from_list subs

/-- The recursive visit of a node list (`for sub_node in node.sub_nodes`). -/
def extract_calls_from_list : List SyntaxNode → List String
  | [] => []
  | n :: rest => extract_calls_from_node n ++ extract_calls_from_list rest
end

/-- `extract_function_calls`, on the outcome of the parse: on a parse
exception the function logs and returns `[]`; on success it collects calls
from every top-level node and filters out built-ins. -/
def extract_function_calls_r : Except ParseErr (List SyntaxNode) → List String
  | .error _ => []
  | .ok nodes => (extract_calls_from_list nodes).filter (fun f => ¬ is_builtin_function f)

/-- `extract_function_calls` over source text, for a given parser. -/
def extract_function_calls (parse : Parser) (code : String) : List String :=
  extract_function_calls_r (parse code)

/-- `_extract_function_name_from_rule`, inner loops: scan the rule's children
for ExpressionGroups; within each, scan for the first WordToken and return
its text; when an ExpressionGroup holds no WordToken child, fall through to
the next child; return `""` when nothing is found. -/
def ruleNameScan : List SyntaxNode → String
  | [] => ""
  | s :: rest =>
    if s.node_type = SyntaxNodeType.expressionGroup then
      match firstWordTokenText s.sub_nodes with
      | some t => t
      | none => ruleNameScan rest
    else ruleNameScan rest

/-- `_extract_function_name_from_rule` on a RuleGroup node. -/
def extract_function_name_from_rule (node : SyntaxNode) : String :=
  ruleNameScan node.sub_nodes

/-- `extract_function_definitions`, on the outcome of the parse: on a parse
exception return `[]`; otherwise collect, from each top-level RuleGroup, the
rule name when nonempty (set semantics read up to membership). -/
def extract_function_definitions_r : Except ParseErr (List SyntaxNode) → List String
  | .error _ => []
  | .ok nodes =>
    nodes.filterMap (fun node =>
      if node.node_type = SyntaxNodeType.ruleGroup then
        let func_name := extract_function_name_from_rule node
        if func_name = "" then none else some func_name
      else none)

/-- `extract_function_definitions` over source text, for a given parser. -/
def extract_function_definitions (parse : Parser) (code : String) : List String :=
  extract_function_definitions_r (parse code)

/-! The chunk store -/

/-- A persisted chunk document.  Optional fields model MongoDB documents:
`none` stands for a missing or null field, which the source code treats
alike through `.get` defaults and the `$or` selection filter. -/
structure Chunk where
  chunkId : Option String := none
  chunk : String := ""
  source : Option String := none
  project : Option String := none
  repo : Option String := none
  sectionPath : Option (List String) := none
  file : Option (List String) := none
  functions : Option (List String) := none
deriving DecidableEq

/-- Python truthiness of an optional string (`None` and `""` are falsy). -/
def pyTruthy : Option String → Bool
  | none => false
  | some s => s ≠ ""

/-- Python `a or b` on optional strings: `b` when `a` is falsy. -/
def pyOr (a b : Option String) : Option String :=
  match a with
  | some s => if s = "" then b else some s
  | none => b

/-- First-key lookup in an insertion-ordered association list (a Python
dict read through `d.get(k, default)`). -/
def dictGet {α : Type} (d : List (String × α)) (k : String) (dflt : α) : α :=
  match d with
  | [] => dflt
  | (k', v) :: rest => if k' = k then v else dictGet rest k dflt

/-- Key-replacing update of an insertion-ordered association list (a Python
dict write `d[k] = v`: replace in place, else append). -/
def dictSet {α : Type} (d : List (String × α)) (k : String) (v : α) : List (String × α) :=
  match d with
  | [] => [(k, v)]
  | (k', v') :: rest => if k' = k then (k, v) :: rest else (k', v') :: dictSet rest k v

/-- Key membership in an association list (`k in d`). -/
def dictHas {α : Type} (d : List (String × α)) (k : String) : Bool :=
  match d with
  | [] => false
  | (k', _) :: rest => k' = k || dictHas rest k

/-- MongoDB `limit(n)`: `limit(0)` means no limit. -/
def mongoLimit {α : Type} (n : Nat) (l : List α) : List α :=
  if n = 0 then l else l.take n

/-! Batch dependency resolver (`app/services/dependency_resolver.py`) -/

/-- The scoped definition lookup of `get_chunks_with_function_def`: the
MongoDB query filters on `source == "code"`, equality of `project` and
`repo`, and equality of `section`/`file` when the given lists are truthy
(non-empty); the matches are then kept when their text's extracted
definitions contain the called name. -/
def get_chunks_with_function_def (parse : Parser) (function_name : String)
    (project repo : Option String) (sectionScope fileScope : List String)
    (store : List Chunk) : List Chunk :=
  let matchesQuery : Chunk → Bool := fun c =>
    c.source = some "code" && c.project = project && c.repo = repo &&
    (if sectionScope ≠ [] then c.sectionPath = some sectionScope else true) &&
    (if fileScope ≠ [] then c.file = some fileScope else true)
  let chunks := store.filter matchesQuery
  chunks.filter (fun c =>
    decide (function_name ∈ extract_function_definitions parse c.chunk))

/-- `resolve_chunk_dependencies`: extract the chunk's calls, look each one up
in the scoped store, and collect the defining chunks' ids, deduplicated in
order and excluding the chunk's own id and falsy ids. -/
def resolve_chunk_dependencies (parse : Parser) (c : Chunk) (store : List Chunk) :
    List String :=
  if c.chunk = "" then []
  else
    let function_calls := extract_function_calls parse c.chunk
    if function_calls = [] then []
    else
      let project := c.project
      let repo := c.repo
      let sectionScope := c.sectionPath.getD []
      let fileScope := c.file.getD []
      function_calls.foldl (fun dependency_ids func_name =>
        let defining_chunks :=
          get_chunks_with_function_def parse func_name project repo sectionScope fileScope store
        defining_chunks.foldl (fun dependency_ids def_chunk =>
          match def_chunk.chunkId with
          | some def_chunk_id =>
            if def_chunk_id ≠ "" ∧ c.chunkId ≠ some def_chunk_id ∧
                def_chunk_id ∉ dependency_ids then
              dependency_ids ++ [def_chunk_id]
            else dependency_ids
          | none => dependency_ids) dependency_ids) []

/-- Counters returned by `add_function_dependencies`. -/
structure Stats where
  total_processed : Nat := 0
  total_updated : Nat := 0
  total_dependencies_added : Nat := 0
deriving DecidableEq

/-- The selection filter of `add_function_dependencies`: `source == "code"`,
and unless `force` is set, the `$or` of a missing/null `functions` field and
an empty `functions` list. -/
def matchesFilter (force : Bool) (c : Chunk) : Bool :=
  c.source = some "code" &&
    (force || c.functions = none || c.functions = some [])

/-- Modelled from the spec: `update_chunk` (in `app/db/db.py`, not among the
sources under review) is `update_functions(chunkId, id_list) -> success
count` (§6): set the `functions` field of the chunk with the given id and
report how many stored documents changed. -/
def update_chunk (chunkId : String) (fns : List String) :
    List Chunk → Nat × List Chunk
  | [] => (0, [])
  | c :: rest =>
    if c.chunkId = some chunkId then
      (if c.functions = some fns then 0 else 1, { c with functions := some fns } :: rest)
    else
      let (n, rest') := update_chunk chunkId fns rest
      (n, c :: rest')

/-- The per-chunk body of the batch loop: count the chunk as processed,
resolve it, and persist either the resolved ids or the empty list; counting
as updated only a persisted non-empty list that changed something.  A chunk
document with no `chunkId` key makes the Python indexing raise, which the
surrounding `except` turns into "processed but not updated". -/
def processOneChunk (parse : Parser) (acc : Stats × List Chunk) (c : Chunk) :
    Stats × List Chunk :=
  let (stats, store) := acc
  let stats := { stats with total_processed := stats.total_processed + 1 }
  let dependency_ids := resolve_chunk_dependencies parse c store
  match c.chunkId with
  | none => (stats, store)
  | some cid =>
    if dependency_ids ≠ [] then
      let (updated, store') := update_chunk cid dependency_ids store
      if updated > 0 then
        ({ stats with
            total_updated := stats.total_updated + 1,
            total_dependencies_added :=
              stats.total_dependencies_added + dependency_ids.length }, store')
      else (stats, store')
    else
      let (_, store') := update_chunk cid [] store
      (stats, store')

/-- The skip/limit pagination loop of `add_function_dependencies`.  `fuel`
bounds the rounds; each executed round advances `skip` by at least one, so
`fuel = total` suffices to reproduce the `while skip < total` loop. -/
def batchLoop (parse : Parser) (batch_size : Nat) (force : Bool) (total : Nat) :
    Nat → Nat → Stats → List Chunk → Stats × List Chunk
  | 0, _, stats, store => (stats, store)
  | fuel + 1, skip, stats, store =>
    if skip < total then
      let chunks := mongoLimit batch_size ((store.filter (matchesFilter force)).drop skip)
      if chunks = [] then (stats, store)
      else
        let (stats', store') := chunks.foldl (processOneChunk parse) (stats, store)
        batchLoop parse batch_size force total fuel (skip + chunks.length) stats' store'
    else (stats, store)

/-- `add_function_dependencies`: count the chunks matching the selection
filter, return zeroed counters when there are none, else run the paginated
batch loop over the store. -/
def add_function_dependencies (parse : Parser) (store : List Chunk)
    (batch_size : Nat) (force : Bool) : Stats × List Chunk :=
  let total_chunks := (store.filter (matchesFilter force)).length
  if total_chunks = 0 then ({}, store)
  else batchLoop parse batch_size force total_chunks total_chunks 0 {} store

/-! Query-time dependency expander (`RAGGenerator._expand_dependencies`) -/

/-- A retrieved document: its text and the metadata keys the expander reads
or writes (`original_chunkId`, `chunkId`, `project`, `repo`, `file`,
`source`, `functions`, `is_dependency`).  `none` models a missing key. -/
structure Document where
  text : String := ""
  original_chunkId : Option String := none
  meta_chunkId : Option String := none
  meta_project : Option String := none
  meta_repo : Option String := none
  meta_file : Option (List String) := none
  meta_source : Option String := none
  meta_functions : List String := []
  is_dependency : Bool := false
deriving DecidableEq

/-- `docs_by_category`: a dict from category name to its document list. -/
abbrev DocsByCategory := List (String × List Document)

deriving instance DecidableEq for Except

/-- Store errors raised by the backing store during a fetch. -/
abbrev StoreErr := String

/-- The batched fetch `get_chunks({"chunkId": {"$in": ids}}, limit=len(ids))`
(`app/db/db.py` is not among the sources under review): an abstract store
call that may raise. -/
abbrev Fetcher := List String → Except StoreErr (List Chunk)

/-- Modelled from the spec: the honest behaviour of `get_chunks` over an
available store (§6, `find_by_ids`) — the chunks whose id is in the request,
truncated to the requested limit, with no error. -/
def mongoFetch (store : List Chunk) : Fetcher := fun ids =>
  .ok ((store.filter (fun c =>
    match c.chunkId with
    | some i => decide (i ∈ ids)
    | none => false)).take ids.length)

/-- One document of the seeding pass: key the document into `processed_docs`
and append its id to `ids_to_check` when its
`original_chunkId`-or-`chunkId` is truthy. -/
def seedStep (acc : List (String × Document) × List String) (doc : Document) :
    List (String × Document) × List String :=
  let chunk_id := pyOr doc.original_chunkId doc.meta_chunkId
  match chunk_id with
  | some s => if s ≠ "" then (dictSet acc.1 s doc, acc.2 ++ [s]) else acc
  | none => acc

/-- Seeding of `processed_docs` and `ids_to_check` from the retrieved code
documents. -/
def seedDocs (code_docs : List Document) :
    List (String × Document) × List String :=
  code_docs.foldl seedStep ([], [])

/-- The in-memory document synthesized for a newly fetched dependency
chunk. -/
def synthDoc (chunk_id : String) (chunk_data : Chunk) : Document :=
  { text := chunk_data.chunk,
    original_chunkId := some chunk_id,
    meta_project := chunk_data.project,
    meta_repo := chunk_data.repo,
    meta_file := chunk_data.file,
    meta_source := some "code",
    meta_functions := chunk_data.functions.getD [],
    is_dependency := true }

/-- `fetched_chunks_map`: the fetched chunks keyed by their truthy id
(a dict comprehension, later entries overwriting earlier ones). -/
def buildFetchedMap (chunks_data : List Chunk) : List (String × Chunk) :=
  chunks_data.foldl (fun m c =>
    match c.chunkId with
    | some i => if i ≠ "" then dictSet m i c else m
    | none => m) []

/-- One id of the current round: add the fetched chunk to `processed_docs`
when new, then append its truthy, unseen dependencies to the next frontier
(the Python `next_level_ids` set, kept here as an insertion-ordered
deduplicated list). -/
def roundBody (fetched : List (String × Chunk))
    (acc : List (String × Document) × List String) (chunk_id : String) :
    List (String × Document) × List String :=
  let (processed_docs, next_level_ids) := acc
  if dictHas fetched chunk_id then
    let chunk_data := dictGet fetched chunk_id {}
    let processed_docs :=
      if dictHas processed_docs chunk_id then processed_docs
      else dictSet processed_docs chunk_id (synthDoc chunk_id chunk_data)
    let dependencies := chunk_data.functions.getD []
    let next_level_ids := dependencies.foldl (fun next dep_id =>
      if dep_id ≠ "" ∧ ¬ dictHas processed_docs dep_id ∧ dep_id ∉ next then
        next ++ [dep_id]
      else next) next_level_ids
    (processed_docs, next_level_ids)
  else acc

/-- The `while current_depth < max_depth and ids_to_check` loop; `fuel` is
`max_depth - current_depth`.  Besides the final `processed_docs` map, the
result records, per executed round, the ids requested from the store (what
the source logs at each round); a store error propagates, as the source has
no handler around the fetch. -/
def expandLoop (fetch : Fetcher) :
    Nat → List (String × Document) → List String →
    Except StoreErr (List (String × Document) × List (List String))
  | 0, processed_docs, _ => .ok (processed_docs, [])
  | fuel + 1, processed_docs, ids_to_check =>
    if ids_to_check = [] then .ok (processed_docs, [])
    else
      match fetch ids_to_check with
      | .error e => .error e
      | .ok chunks_data =>
        let fetched := buildFetchedMap chunks_data
        let (processed_docs', next_level_ids) :=
          ids_to_check.foldl (roundBody fetched) (processed_docs, [])
        match expandLoop fetch fuel processed_docs' next_level_ids with
        | .error e => .error e
        | .ok (final_docs, trace) => .ok (final_docs, ids_to_check :: trace)

/-- `_expand_dependencies`, with its round trace: with no store handle
(`mongo_db is None`) or no code documents, the mapping is returned
untouched; otherwise the walk runs and the `"code"` entry is replaced by
the processed map's values.  A store error from a fetch propagates. -/
def expand_dependencies_full (mongo_db : Option Fetcher)
    (docs_by_category : DocsByCategory) (max_depth : Nat) :
    Except StoreErr (DocsByCategory × List (List String)) :=
  match mongo_db with
  | none => .ok (docs_by_category, [])
  | some fetch =>
    let code_docs := dictGet docs_by_category "code" []
    if code_docs = [] then .ok (docs_by_category, [])
    else
      let (processed_docs, ids_to_check) := seedDocs code_docs
      match expandLoop fetch max_depth processed_docs ids_to_check with
      | .error e => .error e
      | .ok (final_docs, trace) =>
        .ok (dictSet docs_by_category "code" (final_docs.map Prod.snd), trace)

/-- `_expand_dependencies`: the resulting mapping alone. -/
def expand_dependencies (mongo_db : Option Fetcher)
    (docs_by_category : DocsByCategory) (max_depth : Nat) :
    Except StoreErr DocsByCategory :=
  (expand_dependencies_full mongo_db docs_by_category max_depth).map Prod.fst

/-- The ids (`original_chunkId` or `chunkId`) of the code-category documents
of an expansion outcome; an observation helper for concrete runs. -/
def codeIdsOf (r : Except StoreErr DocsByCategory) : List (Option String) :=
  match r with
  | .error _ => []
  | .ok d => (dictGet d "code" []).map (fun doc => pyOr doc.original_chunkId doc.meta_chunkId)

/-! Concrete fixtures for the scenario claims -/

/-- A parser fixture returning an empty forest for every input (source text
with no calls and no definitions). -/
def parseEmptyForest : Parser := fun _ => .ok []

/-- A parser fixture that fails on every input (malformed source). -/
def parseAlwaysFails : Parser := fun _ => .error "unbalanced parentheses"

/-- A code chunk of project P, repo R, with the given id and dependency
list. -/
def chainChunk (i : String) (deps : List String) : Chunk :=
  { chunkId := some i, chunk := i ++ " text", source := some "code",
    project := some "P", repo := some "R", functions := some deps }

/-- The linear five-chunk dependency chain A→B→C→D→E. -/
def chainStore : List Chunk :=
  [chainChunk "A" ["B"], chainChunk "B" ["C"], chainChunk "C" ["D"],
   chainChunk "D" ["E"], chainChunk "E" []]

/-- The two-chunk cyclic store: A depends on B, B depends on A. -/
def cycleStore : List Chunk :=
  [chainChunk "A" ["B"], chainChunk "B" ["A"]]

/-- A retrieved code document seeding chunk A. -/
def docA : Document := { text := "A text", original_chunkId := some "A" }

/-- A result set holding the seed document for A in the code category and one
unrelated category. -/
def docsSeedA : DocsByCategory := [("code", [docA]), ("doc", [{ text := "other d" }])]

/-- A one-chunk store whose only code chunk X has unresolved text with no
calls. -/
def storeX : List Chunk :=
  [{ chunkId := some "X", chunk := "(foo)", source := some "code",
     project := some "P", repo := some "R" }]

/-- A group tree for the source form `((f x) g y)`: the head position holds a
nested group, a WordToken `g` stands at the second sibling position. -/
def treeHeadGroup : SyntaxNode :=
  .mk .expressionGroup ""
    [.mk .expressionGroup "" [.mk .wordToken "f" [], .mk .wordToken "x" []],
     .mk .wordToken "g" [], .mk .wordToken "y" []]

/-- A rule tree for `(= (($a)) (foo $a))`: its first ExpressionGroup child
holds no direct WordToken, its second (the body) starts with `foo`. -/
def ruleNoHeadWord : SyntaxNode :=
  .mk .ruleGroup ""
    [.mk .expressionGroup "" [.mk .expressionGroup "" [.mk .wordToken "$a" []]],
     .mk .expressionGroup "" [.mk .wordToken "foo" [], .mk .wordToken "$a" []]]

/-- A rule tree defining `helper`: `(= (helper $n) (+ $n 1))`. -/
def ruleHelper : SyntaxNode :=
  .mk .ruleGroup ""
    [.mk .expressionGroup "" [.mk .wordToken "helper" [], .mk .wordToken "$n" []],
     .mk .expressionGroup "" [.mk .wordToken "+" [], .mk .wordToken "$n" [], .mk .wordToken "1" []]]

/-- The source text of the `helper` definition. -/
def helperDefText : String := "(= (helper $n) (+ $n 1))"

/-- A parser fixture recognizing exactly the `helper` definition text. -/
def parseHelper : Parser := fun s =>
  if s = helperDefText then .ok [ruleHelper] else .ok []

/-- A chunk defining `helper` under project A, repo R. -/
def chunkDefA : Chunk :=
  { chunkId := some "defA", chunk := helperDefText, source := some "code",
    project := some "A", repo := some "R" }

/-- A chunk defining `helper` under project B, repo R. -/
def chunkDefB : Chunk :=
  { chunkId := some "defB", chunk := helperDefText, source := some "code",
    project := some "B", repo := some "R" }

/-- Two chunks defining `helper`, one under project A and one under
project B (same repo R). -/
def twoProjectStore : List Chunk := [chunkDefA, chunkDefB]

/-- Reachability inside a syntax tree: the reflexive-transitive descent
through `sub_nodes`.  Used to state which nodes a recursive walk visits. -/
inductive Reaches : SyntaxNode → SyntaxNode → Prop where
  | refl (n : SyntaxNode) : Reaches n n
  | child {n m k : SyntaxNode} : m ∈ n.sub_nodes → Reaches m k → Reaches n k

/-- A document carrying neither an `original_chunkId` nor a `chunkId`
metadata key. -/
def docNoId : Document := { text := "no id here" }

/-! Theorems -/

/-- Claim C1, counterexample.  A store with one unresolved code chunk whose text
has no calls: the first `force=False` run processes it and persists
`functions = []`, yet the second `force=False` run on the unchanged store
processes it again (`total_processed = 1`, not 0) — a chunk persisted with
an empty `functions` list is re-selected by the unresolved filter, so the
claim as stated is false. -/
theorem resolver_empty_functions_reprocessed_cx :
    (add_function_dependencies parseEmptyForest storeX 100 false).1.total_processed = 1 ∧
    (add_function_dependencies parseEmptyForest storeX 100 false).2 =
      [{ chunkId := some "X", chunk := "(foo)", source := some "code",
         project := some "P", repo := some "R", functions := some [] }] ∧
    (add_function_dependencies parseEmptyForest
        (add_function_dependencies parseEmptyForest storeX 100 false).2
        100 false).1.total_processed = 1 := by
  decide

/-- Claim C2, counterexample.  On the linear chain A→B→C→D→E seeded with A,
expansion with `max_depth = 2` does not include C (nor D, E): the claim that
the resulting code set contains exactly A, B and C is false on the code. -/
theorem expansion_depth_two_excludes_C_cx :
    some "C" ∉ codeIdsOf (expand_dependencies (some (mongoFetch chainStore)) docsSeedA 2) ∧
    some "D" ∉ codeIdsOf (expand_dependencies (some (mongoFetch chainStore)) docsSeedA 2) ∧
    some "E" ∉ codeIdsOf (expand_dependencies (some (mongoFetch chainStore)) docsSeedA 2) := by
  decide

/-- Claim C2, amended.  On the linear chain A→B→C→D→E seeded with A, expansion
with `max_depth = 2` yields a code-category set of exactly A and B: the
first loop round is spent fetching the seed A (collecting B as frontier),
the second adds B, and the depth bound stops before C is fetched. -/
theorem expansion_depth_two_chain :
    codeIdsOf (expand_dependencies (some (mongoFetch chainStore)) docsSeedA 2) =
      [some "A", some "B"] ∧
    (expand_dependencies_full (some (mongoFetch chainStore)) docsSeedA 2).map Prod.snd =
      .ok [["A"], ["B"]] := by
  decide

/-- Claim C3, counterexample.  In the tree of `((f x) g y)` the head position holds
a nested group and the WordToken `g` stands at the second sibling position;
`extract_function_calls` nevertheless records `g` — a WordToken at a later
sibling position of a group is recorded, so the claim as stated is false. -/
theorem calls_later_sibling_recorded_cx :
    (treeHeadGroup.sub_nodes.head?.map SyntaxNode.node_type ≠
      some SyntaxNodeType.wordToken) ∧
    "g" ∈ extract_function_calls_r (.ok [treeHeadGroup]) := by
  decide

/-- Claim C4, counterexample.  A store whose batched fetch raises during expansion:
`_expand_dependencies` has no handler around the fetch, so the error
propagates out of the expander instead of being logged and contained — the
claim that every store error is contained is false. -/
theorem expansion_store_error_propagates_cx :
    expand_dependencies (some (fun _ => Except.error "store down")) docsSeedA 3 =
      .error "store down" := by
  decide

/-- Claim C5, counterexample.  A RuleGroup whose first ExpressionGroup child holds
no direct WordToken (the rule `(= (($a)) (foo $a))`): the extractor falls
through to the next ExpressionGroup child and records `foo` from the body,
instead of contributing no definition — the claim as stated is false. -/
theorem definition_fallthrough_cx :
    extract_function_definitions_r (.ok [ruleNoHeadWord]) = ["foo"] ∧
    (ruleNoHeadWord.sub_nodes.head?.map
      (fun n => firstWordTokenText n.sub_nodes)) = some none := by
  decide

/-- Claim C6.  On the cyclic store (A depends on B, B depends on A) seeded with A,
expansion with `max_depth = 3` terminates with code-category set exactly
{A, B}, each document present once, and the round trace shows each chunk id
requested from the store exactly once ([A] in the first round, [B] in the
second, empty frontier thereafter). -/
theorem expansion_cycle_terminates :
    expand_dependencies_full (some (mongoFetch cycleStore)) [("code", [docA])] 3 =
      .ok ([("code", [docA, synthDoc "B" (chainChunk "B" ["A"])])], [["A"], ["B"]]) ∧
    codeIdsOf (expand_dependencies (some (mongoFetch cycleStore)) [("code", [docA])] 3) =
      [some "A", some "B"] := by
  decide

/-- Claim C8.  For every parser outcome and input string, both extractors return a
list and never propagate the parse failure: whenever the parser raises, each
returns the empty list. -/
theorem extractors_never_raise (parse : Parser) (code : String) (e : ParseErr)
    (h : parse code = Except.error e) :
    extract_function_calls parse code = [] ∧
    extract_function_definitions parse code = [] := by
  unfold extract_function_calls extract_function_definitions
  rw [h]
  exact ⟨rfl, rfl⟩

/-- Claim C8, witness: the always-failing parser (malformed, unbalanced input) at a
concrete string. -/
theorem extractors_never_raise_witness :
    extract_function_calls parseAlwaysFails "((" = [] ∧
    extract_function_definitions parseAlwaysFails "((" = [] :=
  extractors_never_raise parseAlwaysFails "((" "unbalanced parentheses" rfl

/-- Claim C7.  Every chunk returned by the scoped definition lookup is a code
chunk whose `project` and `repo` equal the resolving chunk's, and whose
`section` and `file` equal the given lists whenever those are non-empty —
in particular a chunk stored under a different project is never returned. -/
theorem resolver_scoping (parse : Parser) (function_name : String)
    (project repo : Option String) (sectionScope fileScope : List String)
    (store : List Chunk) (c : Chunk)
    (h : c ∈ get_chunks_with_function_def parse function_name project repo
      sectionScope fileScope store) :
    c.source = some "code" ∧ c.project = project ∧ c.repo = repo ∧
    (sectionScope ≠ [] → c.sectionPath = some sectionScope) ∧
    (fileScope ≠ [] → c.file = some fileScope) := by
  unfold get_chunks_with_function_def at h
  simp only [List.mem_filter, Bool.and_eq_true, decide_eq_true_eq] at h
  obtain ⟨⟨-, ⟨⟨⟨⟨hs, hp⟩, hr⟩, hsec⟩, hf⟩⟩, -⟩ := h
  refine ⟨hs, hp, hr, ?_, ?_⟩
  · intro hne
    simpa [hne] using hsec
  · intro hne
    simpa [hne] using hf

/-- Claim C7, witness: looking `helper` up under project A over a store that also
defines it under project B. -/
theorem resolver_scoping_witness :
    chunkDefA.source = some "code" ∧ chunkDefA.project = some "A" ∧
    chunkDefA.repo = some "R" ∧
    (([] : List String) ≠ [] → chunkDefA.sectionPath = some []) ∧
    (([] : List String) ≠ [] → chunkDefA.file = some []) :=
  resolver_scoping parseHelper "helper" (some "A") (some "R") [] []
    twoProjectStore chunkDefA (by decide)

/-- Looking a key up after writing a different key leaves the association
list's answer unchanged. -/
theorem dictGet_dictSet_ne {α : Type} (d : List (String × α)) (k k' : String)
    (v : α) (dflt : α) (h : k' ≠ k) :
    dictGet (dictSet d k v) k' dflt = dictGet d k' dflt := by
  induction d with
  | nil =>
    simp only [dictSet, dictGet]
    rw [if_neg (fun hh => h hh.symm)]
  | cons p rest ih =>
    obtain ⟨pk, pv⟩ := p
    simp only [dictSet]
    by_cases hk : pk = k
    · rw [if_pos hk]
      subst hk
      simp only [dictGet]
      rw [if_neg (fun hh => h hh.symm), if_neg (fun hh => h hh.symm)]
    · rw [if_neg hk]
      simp only [dictGet]
      by_cases hk' : pk = k'
      · rw [if_pos hk', if_pos hk']
      · rw [if_neg hk', if_neg hk', ih]

/-- Looking the written key up returns the written value. -/
theorem dictGet_dictSet_self {α : Type} (d : List (String × α)) (k : String)
    (v : α) (dflt : α) :
    dictGet (dictSet d k v) k dflt = v := by
  induction d with
  | nil => simp [dictSet, dictGet]
  | cons p rest ih =>
    obtain ⟨pk, pv⟩ := p
    simp only [dictSet]
    by_cases hk : pk = k
    · rw [if_pos hk]
      simp [dictGet]
    · rw [if_neg hk]
      simp only [dictGet]
      rw [if_neg hk, ih]

/-- Shape of a successful full expansion: either an early return of the
input mapping, or the walk ran and the result writes exactly the `"code"`
entry with the processed map's values. -/
theorem expand_full_shape (mongo_db : Option Fetcher) (docs : DocsByCategory)
    (max_depth : Nat) (p : DocsByCategory × List (List String))
    (h : expand_dependencies_full mongo_db docs max_depth = .ok p) :
    (p.1 = docs ∧ (mongo_db = none ∨ dictGet docs "code" [] = [])) ∨
    ∃ final_docs trace,
      expandLoop (mongo_db.getD (mongoFetch [])) max_depth
        (seedDocs (dictGet docs "code" [])).1
        (seedDocs (dictGet docs "code" [])).2 = .ok (final_docs, trace) ∧
      dictGet docs "code" [] ≠ [] ∧
      p = (dictSet docs "code" (final_docs.map Prod.snd), trace) := by
  unfold expand_dependencies_full at h
  cases mongo_db with
  | none =>
    cases h
    exact Or.inl ⟨rfl, Or.inl rfl⟩
  | some fetch =>
    dsimp only at h
    by_cases hc : dictGet docs "code" [] = []
    · rw [if_pos hc] at h
      cases h
      exact Or.inl ⟨rfl, Or.inr hc⟩
    · rw [if_neg hc] at h
      rcases hl : expandLoop fetch max_depth (seedDocs (dictGet docs "code" [])).1
          (seedDocs (dictGet docs "code" [])).2 with e | q
      · rw [hl] at h
        cases h
      · obtain ⟨final_docs, trace⟩ := q
        rw [hl] at h
        cases h
        right
        exact ⟨final_docs, trace, hl, hc, rfl⟩

/-- Claim C9.  Dependency expansion writes only the `"code"` entry of the
documents-by-category mapping: whenever it returns a mapping, every other
category's document list is read back unchanged. -/
theorem expansion_frame_property (mongo_db : Option Fetcher)
    (docs_by_category : DocsByCategory) (max_depth : Nat) (k : String)
    (res : DocsByCategory)
    (h : expand_dependencies mongo_db docs_by_category max_depth = .ok res)
    (hk : k ≠ "code") :
    dictGet res k [] = dictGet docs_by_category k [] := by
  unfold expand_dependencies at h
  rcases hfull : expand_dependencies_full mongo_db docs_by_category max_depth with e | p
  · rw [hfull] at h
    simp [Except.map] at h
  · rw [hfull] at h
    simp only [Except.map] at h
    injection h with h1
    rcases expand_full_shape mongo_db docs_by_category max_depth p hfull with ⟨hsame, -⟩ | hwrite
    · rw [← h1, hsame]
    · obtain ⟨final_docs, trace, -, -, hp⟩ := hwrite
      rw [← h1, hp]
      exact dictGet_dictSet_ne docs_by_category "code" k _ [] hk

/-- Seeding only appends to the id list. -/
theorem seedStep_ids_extend (acc : List (String × Document) × List String)
    (doc : Document) :
    ∃ t, (seedStep acc doc).2 = acc.2 ++ t := by
  unfold seedStep
  rcases pyOr doc.original_chunkId doc.meta_chunkId with _ | s
  · exact ⟨[], by simp⟩
  · dsimp only
    by_cases hs : s = ""
    · rw [if_neg (by simp [hs])]
      exact ⟨[], by simp⟩
    · rw [if_pos hs]
      exact ⟨[s], rfl⟩

/-- A non-empty id accumulator stays non-empty through the seeding fold. -/
theorem foldl_seedStep_ids_ne_nil (l : List Document)
    (acc : List (String × Document) × List String) (h : acc.2 ≠ []) :
    (l.foldl seedStep acc).2 ≠ [] := by
  induction l generalizing acc with
  | nil => exact h
  | cons doc rest ih =>
    refine ih (seedStep acc doc) ?_
    obtain ⟨t, ht⟩ := seedStep_ids_extend acc doc
    rw [ht]
    simp [h]

/-- A retrieved code document with a truthy id guarantees a non-empty
initial frontier. -/
theorem seed_ids_ne_nil (code_docs : List Document) (d : Document)
    (hd : d ∈ code_docs)
    (ht : pyTruthy (pyOr d.original_chunkId d.meta_chunkId) = true) :
    (seedDocs code_docs).2 ≠ [] := by
  unfold seedDocs
  suffices hgen : ∀ acc : List (String × Document) × List String,
      (code_docs.foldl seedStep acc).2 ≠ [] by
    exact hgen ([], [])
  intro acc
  induction code_docs generalizing acc with
  | nil => cases hd
  | cons doc rest ih =>
    rcases List.mem_cons.1 hd with rfl | hmem
    · refine foldl_seedStep_ids_ne_nil rest (seedStep acc d) ?_
      unfold seedStep
      unfold pyTruthy at ht
      rcases hp : pyOr d.original_chunkId d.meta_chunkId with _ | s
      · rw [hp] at ht
        cases ht
      · rw [hp] at ht
        dsimp only
        rw [if_pos (by simpa using ht)]
        simp
    · exact ih hmem (seedStep acc doc)

/-- Claim C4, amended.  Only the uninitialized-store-handle case is contained:
with no store handle the expander returns the mapping untouched (after a
logged warning); but a store error raised by the batched fetch during
expansion propagates out of the expander (and hence to the generation
caller, which awaits it with no handler) instead of being caught. -/
theorem expansion_error_containment_amended :
    (∀ (docs_by_category : DocsByCategory) (max_depth : Nat),
        expand_dependencies none docs_by_category max_depth = .ok docs_by_category) ∧
    (∀ (e : StoreErr) (docs_by_category : DocsByCategory) (max_depth : Nat) (d : Document),
        d ∈ dictGet docs_by_category "code" [] →
        pyTruthy (pyOr d.original_chunkId d.meta_chunkId) = true →
        0 < max_depth →
        expand_dependencies (some (fun _ => Except.error e)) docs_by_category max_depth =
          .error e) := by
  constructor
  · intro docs max_depth
    rfl
  · intro e docs max_depth d hd ht hdepth
    unfold expand_dependencies expand_dependencies_full
    dsimp only
    rw [if_neg (List.ne_nil_of_mem hd)]
    rcases hs : seedDocs (dictGet docs "code" []) with ⟨sp, si⟩
    have hsi : si ≠ [] := by
      have := seed_ids_ne_nil (dictGet docs "code" []) d hd ht
      rw [hs] at this
      exact this
    obtain ⟨n, rfl⟩ : ∃ n, max_depth = n + 1 :=
      ⟨max_depth - 1, by omega⟩
    dsimp only
    rw [expandLoop, if_neg hsi]
    rfl

/-- Claim C4, amended, witness: the uninitialized handle leaves a concrete result
set untouched, and a concrete failing store propagates its error through
expansion of that same result set. -/
theorem expansion_error_containment_amended_witness :
    expand_dependencies none docsSeedA 3 = .ok docsSeedA ∧
    expand_dependencies (some (fun _ => Except.error "store down")) docsSeedA 3 =
      .error "store down" :=
  ⟨expansion_error_containment_amended.1 docsSeedA 3,
   expansion_error_containment_amended.2 "store down" docsSeedA 3 docA
     (by decide) (by decide) (by decide)⟩

/-- An entry of an updated association list is an old entry or the written
pair. -/
theorem mem_dictSet_elim {α : Type} {p : String × α} {d : List (String × α)}
    {k : String} {v : α} (h : p ∈ dictSet d k v) : p ∈ d ∨ p = (k, v) := by
  induction d with
  | nil =>
    simp only [dictSet] at h
    rcases List.mem_singleton.1 h with rfl
    exact Or.inr rfl
  | cons q rest ih =>
    simp only [dictSet] at h
    by_cases hk : q.1 = k
    · rw [if_pos hk] at h
      rcases List.mem_cons.1 h with rfl | hmem
      · exact Or.inr rfl
      · exact Or.inl (List.mem_cons_of_mem q hmem)
    · rw [if_neg hk] at h
      rcases List.mem_cons.1 h with rfl | hmem
      · exact Or.inl (List.mem_cons_self _ _)
      · rcases ih hmem with hold | hnew
        · exact Or.inl (List.mem_cons_of_mem q hold)
        · exact Or.inr hnew

/-- A truthy Python `or` of two optionals has one side present. -/
theorem pyOr_eq_some {a b : Option String} {s : String}
    (h : pyOr a b = some s) : a ≠ none ∨ b ≠ none := by
  rcases a with _ | t
  · exact Or.inr (by simp [pyOr] at h; simp [h])
  · exact Or.inl (by simp)

/-- The seeding fold preserves the id-key invariant of the processed map. -/
theorem foldl_seedStep_keyed (l : List Document) :
    ∀ acc : List (String × Document) × List String,
    (∀ q ∈ acc.1, q.2.original_chunkId ≠ none ∨ q.2.meta_chunkId ≠ none) →
    ∀ q ∈ (l.foldl seedStep acc).1,
      q.2.original_chunkId ≠ none ∨ q.2.meta_chunkId ≠ none := by
  induction l with
  | nil => exact fun acc hacc => hacc
  | cons doc rest ih =>
    intro acc hacc
    refine ih (seedStep acc doc) ?_
    intro q hq
    unfold seedStep at hq
    rcases hor : pyOr doc.original_chunkId doc.meta_chunkId with _ | s
    · rw [hor] at hq
      exact hacc q hq
    · rw [hor] at hq
      dsimp only at hq
      by_cases hs : s = ""
      · rw [if_neg (by simp [hs])] at hq
        exact hacc q hq
      · rw [if_pos hs] at hq
        rcases mem_dictSet_elim hq with hold | rfl
        · exact hacc q hold
        · exact pyOr_eq_some hor

/-- Every value in the seeded `processed_docs` map carries an id key. -/
theorem seed_processed_keyed (code_docs : List Document)
    (p : String × Document) (hp : p ∈ (seedDocs code_docs).1) :
    p.2.original_chunkId ≠ none ∨ p.2.meta_chunkId ≠ none :=
  foldl_seedStep_keyed code_docs ([], []) (by intro q hq; cases hq) p hp

/-- One round of the walk only adds synthesized documents, which carry
`original_chunkId`. -/
theorem roundBody_keyed (fetched : List (String × Chunk))
    (acc : List (String × Document) × List String) (chunk_id : String)
    (hacc : ∀ q ∈ acc.1, q.2.original_chunkId ≠ none ∨ q.2.meta_chunkId ≠ none) :
    ∀ q ∈ (roundBody fetched acc chunk_id).1,
      q.2.original_chunkId ≠ none ∨ q.2.meta_chunkId ≠ none := by
  obtain ⟨processed, next⟩ := acc
  intro q hq
  unfold roundBody at hq
  dsimp only at hq
  by_cases hhit : dictHas fetched chunk_id = true
  · rw [if_pos hhit] at hq
    dsimp only at hq
    by_cases hseen : dictHas processed chunk_id = true
    · rw [if_pos hseen] at hq
      exact hacc q hq
    · rw [if_neg hseen] at hq
      rcases mem_dictSet_elim hq with hold | rfl
      · exact hacc q hold
      · exact Or.inl (by simp [synthDoc])
  · rw [if_neg hhit] at hq
    exact hacc q hq

/-- The per-round fold preserves the id-key invariant. -/
theorem foldl_roundBody_keyed (fetched : List (String × Chunk))
    (ids : List String) (acc : List (String × Document) × List String)
    (hacc : ∀ q ∈ acc.1, q.2.original_chunkId ≠ none ∨ q.2.meta_chunkId ≠ none) :
    ∀ q ∈ (ids.foldl (roundBody fetched) acc).1,
      q.2.original_chunkId ≠ none ∨ q.2.meta_chunkId ≠ none := by
  induction ids generalizing acc with
  | nil => exact hacc
  | cons i rest ih =>
    exact ih (roundBody fetched acc i) (roundBody_keyed fetched acc i hacc)

/-- The whole walk preserves the id-key invariant of `processed_docs`. -/
theorem expandLoop_keyed (fetch : Fetcher) (fuel : Nat)
    (processed : List (String × Document)) (ids : List String)
    (final_docs : List (String × Document)) (trace : List (List String))
    (h : expandLoop fetch fuel processed ids = .ok (final_docs, trace))
    (hp : ∀ q ∈ processed, q.2.original_chunkId ≠ none ∨ q.2.meta_chunkId ≠ none) :
    ∀ q ∈ final_docs, q.2.original_chunkId ≠ none ∨ q.2.meta_chunkId ≠ none := by
  induction fuel generalizing processed ids final_docs trace with
  | zero =>
    unfold expandLoop at h
    cases h
    exact hp
  | succ n ih =>
    unfold expandLoop at h
    by_cases hids : ids = []
    · rw [if_pos hids] at h
      cases h
      exact hp
    · rw [if_neg hids] at h
      rcases hf : fetch ids with e | chunks_data
      · rw [hf] at h
        cases h
      · rw [hf] at h
        dsimp only at h
        rcases hr : ids.foldl (roundBody (buildFetchedMap chunks_data)) (processed, []) with ⟨processed', next⟩
        rw [hr] at h
        rcases hl : expandLoop fetch n processed' next with e | q
        · rw [hl] at h
          cases h
        · obtain ⟨fd, tr⟩ := q
          rw [hl] at h
          cases h
          refine ih processed' next final_docs tr hl ?_
          have := foldl_roundBody_keyed (buildFetchedMap chunks_data) ids (processed, []) hp
          rw [hr] at this
          exact this

/-- Claim C10.  A retrieved code document whose metadata holds neither an
`original_chunkId` nor a `chunkId` key is never seeded into the processed
map, and since expansion replaces the code-category list with that map's
values, the document is absent from the code-category set after a completed
expansion — the operation can shrink the code partition. -/
theorem expansion_drops_idless_docs (store : List Chunk)
    (docs_by_category : DocsByCategory) (max_depth : Nat) (d : Document)
    (res : DocsByCategory)
    (h1 : d.original_chunkId = none) (h2 : d.meta_chunkId = none)
    (hd : d ∈ dictGet docs_by_category "code" [])
    (h : expand_dependencies (some (mongoFetch store)) docs_by_category max_depth = .ok res) :
    d ∉ dictGet res "code" [] := by
  unfold expand_dependencies at h
  rcases hfull : expand_dependencies_full (some (mongoFetch store)) docs_by_category max_depth
      with e | p
  · rw [hfull] at h
    simp [Except.map] at h
  · rw [hfull] at h
    simp only [Except.map] at h
    injection h with h1'
    rcases expand_full_shape _ docs_by_category max_depth p hfull with ⟨-, hnone | hemp⟩ | hwrite
    · cases hnone
    · exact absurd hemp (List.ne_nil_of_mem hd)
    · obtain ⟨final_docs, trace, hloop, -, hp⟩ := hwrite
      rw [← h1', hp]
      rw [dictGet_dictSet_self]
      intro hmem
      obtain ⟨q, hq, hqd⟩ := List.mem_map.1 hmem
      have hkey := expandLoop_keyed _ max_depth _ _ final_docs trace hloop
        (fun r hr => seed_processed_keyed (dictGet docs_by_category "code" []) r hr) q hq
      rw [hqd] at hkey
      rcases hkey with hk | hk
      · exact hk h1
      · exact hk h2

/-- Claim C10, witness: a seed document with no id keys is dropped by a concrete
completed expansion over an empty store. -/
theorem expansion_drops_idless_docs_witness :
    docNoId ∉ dictGet [("code", ([] : List Document))] "code" [] :=
  expansion_drops_idless_docs [] [("code", [docNoId])] 1 docNoId
    [("code", [])] rfl rfl (by decide) (by decide)

/-- Processing a chunk increments the processed counter by exactly one,
whatever the resolution outcome. -/
theorem processOneChunk_tp (parse : Parser) (acc : Stats × List Chunk) (c : Chunk) :
    (processOneChunk parse acc c).1.total_processed = acc.1.total_processed + 1 := by
  obtain ⟨stats, store⟩ := acc
  unfold processOneChunk
  dsimp only
  rcases c.chunkId with _ | cid
  · rfl
  · dsimp only
    by_cases hdeps : resolve_chunk_dependencies parse c store ≠ []
    · rw [if_pos hdeps]
      rcases hu : update_chunk cid (resolve_chunk_dependencies parse c store) store with ⟨n, store'⟩
      dsimp only
      by_cases hn : n > 0
      · rw [if_pos hn]
      · rw [if_neg hn]
    · rw [if_neg hdeps]

/-- Folding the per-chunk body over a batch adds the batch length to the
processed counter. -/
theorem foldl_process_tp (parse : Parser) (chunks : List Chunk) :
    ∀ acc : Stats × List Chunk,
    (chunks.foldl (processOneChunk parse) acc).1.total_processed =
      acc.1.total_processed + chunks.length := by
  induction chunks with
  | nil => intro acc; simp
  | cons c rest ih =>
    intro acc
    rw [List.foldl_cons, ih (processOneChunk parse acc c), processOneChunk_tp]
    simp only [List.length_cons]
    omega

/-- The batch loop never decreases the processed counter. -/
theorem batchLoop_tp_le (parse : Parser) (batch_size : Nat) (force : Bool)
    (total : Nat) (fuel : Nat) :
    ∀ (skip : Nat) (stats : Stats) (store : List Chunk),
    stats.total_processed ≤
      (batchLoop parse batch_size force total fuel skip stats store).1.total_processed := by
  induction fuel with
  | zero => intro skip stats store; exact Nat.le_refl _
  | succ n ih =>
    intro skip stats store
    unfold batchLoop
    by_cases hskip : skip < total
    · rw [if_pos hskip]
      dsimp only
      by_cases hch : mongoLimit batch_size ((store.filter (matchesFilter force)).drop skip) = []
      · rw [if_pos hch]
      · rw [if_neg hch]
        rcases hfold : (mongoLimit batch_size ((store.filter (matchesFilter force)).drop skip)).foldl
            (processOneChunk parse) (stats, store) with ⟨stats', store'⟩
        dsimp only
        have h1 : stats.total_processed ≤ stats'.total_processed := by
          have := foldl_process_tp parse
            (mongoLimit batch_size ((store.filter (matchesFilter force)).drop skip)) (stats, store)
          rw [hfold] at this
          dsimp only at this
          omega
        exact Nat.le_trans h1 (ih _ stats' store')
    · rw [if_neg hskip]

/-- A non-empty list stays non-empty through a MongoDB limit. -/
theorem mongoLimit_ne_nil {α : Type} (n : Nat) (l : List α) (h : l ≠ []) :
    mongoLimit n l ≠ [] := by
  unfold mongoLimit
  by_cases hn : n = 0
  · rw [if_pos hn]
    exact h
  · rw [if_neg hn]
    intro htake
    rcases List.take_eq_nil_iff.1 htake with h0 | h0
    · exact hn h0
    · exact h h0

/-- When some chunk matches the selection filter, the run processes at
least one chunk. -/
theorem add_tp_pos (parse : Parser) (store : List Chunk) (batch_size : Nat)
    (h : store.filter (matchesFilter false) ≠ []) :
    0 < (add_function_dependencies parse store batch_size false).1.total_processed := by
  unfold add_function_dependencies
  have htotal : (store.filter (matchesFilter false)).length ≠ 0 := by
    intro h0
    exact h (List.length_eq_zero.1 h0)
  rw [if_neg htotal]
  rcases hT : (store.filter (matchesFilter false)).length with _ | t
  · exact absurd hT htotal
  · unfold batchLoop
    rw [if_pos (Nat.succ_pos t)]
    dsimp only
    have hch : mongoLimit batch_size ((store.filter (matchesFilter false)).drop 0) ≠ [] := by
      rw [List.drop_zero]
      exact mongoLimit_ne_nil batch_size _ h
    rw [if_neg hch]
    rcases hfold : (mongoLimit batch_size ((store.filter (matchesFilter false)).drop 0)).foldl
        (processOneChunk parse) (({} : Stats), store) with ⟨stats', store'⟩
    dsimp only
    have h1 : 0 < stats'.total_processed := by
      have := foldl_process_tp parse
        (mongoLimit batch_size ((store.filter (matchesFilter false)).drop 0)) (({} : Stats), store)
      rw [hfold] at this
      have hlen : 0 < (mongoLimit batch_size ((store.filter (matchesFilter false)).drop 0)).length :=
        List.length_pos.2 hch
      simp only at this
      omega
    exact Nat.lt_of_lt_of_le h1 (batchLoop_tp_le parse batch_size false (t + 1) t _ stats' store')

/-- Claim C1, amended.  A `force=False` run returns `total_processed = 0` exactly
when no code chunk in the store has a missing, null, or empty `functions`
field: a chunk persisted with `functions = []` is re-selected by the
unresolved filter (whose `$or` explicitly lists the empty list), so after a
first run the second run's `total_processed` counts the chunks that
resolved to no dependencies rather than being 0. -/
theorem resolver_second_run_zero_iff (parse : Parser) (store : List Chunk)
    (batch_size : Nat) :
    (add_function_dependencies parse store batch_size false).1.total_processed = 0 ↔
    ∀ c ∈ store, c.source = some "code" →
      c.functions ≠ none ∧ c.functions ≠ some [] := by
  have hfilter : (store.filter (matchesFilter false) = []) ↔
      ∀ c ∈ store, c.source = some "code" →
        c.functions ≠ none ∧ c.functions ≠ some [] := by
    rw [List.filter_eq_nil_iff]
    constructor
    · intro hall c hc hsrc
      have hnot := hall c hc
      refine ⟨?_, ?_⟩
      · intro hfn
        exact hnot (by simp [matchesFilter, hsrc, hfn])
      · intro hfe
        exact hnot (by simp [matchesFilter, hsrc, hfe])
    · intro hall c hc hmat
      unfold matchesFilter at hmat
      simp only [Bool.and_eq_true, Bool.or_eq_true, decide_eq_true_eq, Bool.false_or] at hmat
      obtain ⟨hsrc, hfn⟩ := hmat
      have hres := hall c hc hsrc
      rcases hfn with hfn | hfn
      · exact hres.1 hfn
      · exact hres.2 hfn
  constructor
  · intro h
    rw [← hfilter]
    by_contra hne
    have := add_tp_pos parse store batch_size hne
    omega
  · intro h
    have hnil : store.filter (matchesFilter false) = [] := hfilter.2 h
    unfold add_function_dependencies
    rw [hnil]
    simp [Stats.total_processed]

/-- Membership in the head contribution of one group node. -/
theorem mem_headCalls (t : SyntaxNodeType) (subs : List SyntaxNode) (a : String) :
    a ∈ headCalls t subs ↔
      (t = SyntaxNodeType.callGroup ∨ t = SyntaxNodeType.expressionGroup) ∧
      firstWordTokenText subs = some a ∧ a ≠ "" ∧ startsWithSigil a = false := by
  unfold headCalls
  by_cases hg : t = SyntaxNodeType.callGroup ∨ t = SyntaxNodeType.expressionGroup
  · rw [if_pos hg]
    by_cases he : subs.isEmpty
    · rw [if_pos he]
      have hnil : subs = [] := by
        cases subs
        · rfl
        · cases he
      subst hnil
      simp [firstWordTokenText]
    · rw [if_neg he]
      rcases hw : firstWordTokenText subs with _ | w
      · simp
      · dsimp only
        by_cases hok : w ≠ "" ∧ ¬ startsWithSigil w = true
        · rw [if_pos hok]
          constructor
          · intro hmem
            rcases List.mem_singleton.1 hmem with rfl
            exact ⟨hg, rfl, hok.1, by simpa using hok.2⟩
          · rintro ⟨-, hwa, -, -⟩
            injection hwa with hwa
            rw [hwa]
            exact List.mem_singleton.2 rfl
        · rw [if_neg hok]
          constructor
          · intro hmem
            cases hmem
          · rintro ⟨-, hwa, ha, hsig⟩
            injection hwa with hwa
            subst hwa
            exact absurd ⟨ha, by simp [hsig]⟩ hok
  · rw [if_neg hg]
    constructor
    · intro hmem
      cases hmem
    · rintro ⟨hg', -, -, -⟩
      exact absurd hg' hg

mutual
/-- A name is collected from a node's walk exactly when some reachable group
node's first WordToken child carries it (sigil-free and nonempty). -/
theorem mem_extract_calls_from_node (a : String) (n : SyntaxNode) :
    a ∈ extract_calls_from_node n ↔
      ∃ m, Reaches n m ∧ a ∈ headCalls m.node_type m.sub_nodes := by
  obtain ⟨t, s, subs⟩ := n
  rw [extract_calls_from_node, List.mem_append]
  constructor
  · rintro (hhead | hrec)
    · exact ⟨SyntaxNode.mk t s subs, Reaches.refl _, hhead⟩
    · obtain ⟨c, hc, m, hr, hm⟩ := (mem_extract_calls_from_list a subs).1 hrec
      exact ⟨m, Reaches.child hc hr, hm⟩
  · rintro ⟨m, hr, hm⟩
    cases hr with
    | refl => exact Or.inl hm
    | child hc hr' =>
      exact Or.inr ((mem_extract_calls_from_list a subs).2 ⟨_, hc, m, hr', hm⟩)

/-- List version of `mem_extract_calls_from_node`. -/
theorem mem_extract_calls_from_list (a : String) (l : List SyntaxNode) :
    a ∈ extract_calls_from_list l ↔
      ∃ n ∈ l, ∃ m, Reaches n m ∧ a ∈ headCalls m.node_type m.sub_nodes := by
  match l with
  | [] =>
    rw [extract_calls_from_list]
    simp
  | n :: rest =>
    rw [extract_calls_from_list, List.mem_append,
        mem_extract_calls_from_node a n, mem_extract_calls_from_list a rest]
    constructor
    · rintro (⟨m, hr, hm⟩ | ⟨c, hc, m, hr, hm⟩)
      · exact ⟨n, List.mem_cons_self _ _, m, hr, hm⟩
      · exact ⟨c, List.mem_cons_of_mem _ hc, m, hr, hm⟩
    · rintro ⟨c, hc, m, hr, hm⟩
      rcases List.mem_cons.1 hc with rfl | hc'
      · exact Or.inl ⟨m, hr, hm⟩
      · exact Or.inr ⟨c, hc', m, hr, hm⟩
end

/-- Claim C3, amended.  A name is returned by `extract_function_calls` exactly when
it is non-builtin, nonempty, sigil-free, and stands as the *first WordToken
child — at whatever sibling position — * of some reachable
CallGroup/ExpressionGroup node: the head need not be the group's first
child, but any WordToken after the first WordToken child is never recorded,
and recursion visits all children. -/
theorem extract_calls_head_any_position (nodes : List SyntaxNode) (a : String) :
    a ∈ extract_function_calls_r (.ok nodes) ↔
      is_builtin_function a = false ∧ a ≠ "" ∧ startsWithSigil a = false ∧
      ∃ n ∈ nodes, ∃ m, Reaches n m ∧
        (m.node_type = SyntaxNodeType.callGroup ∨
          m.node_type = SyntaxNodeType.expressionGroup) ∧
        firstWordTokenText m.sub_nodes = some a := by
  rw [extract_function_calls_r]
  rw [List.mem_filter]
  rw [mem_extract_calls_from_list a nodes]
  constructor
  · rintro ⟨⟨n, hn, m, hr, hm⟩, hb⟩
    obtain ⟨hg, hw, ha, hsig⟩ := (mem_headCalls _ _ _).1 hm
    refine ⟨?_, ha, hsig, n, hn, m, hr, hg, hw⟩
    simpa using hb
  · rintro ⟨hb, ha, hsig, n, hn, m, hr, hg, hw⟩
    refine ⟨⟨n, hn, m, hr, (mem_headCalls _ _ _).2 ⟨hg, hw, ha, hsig⟩⟩, ?_⟩
    simpa using hb

/-- The rule-name scan yields a nonempty name exactly when some
ExpressionGroup child directly holds a WordToken, every earlier
ExpressionGroup child holds none, and that first hit's first WordToken
carries the name. -/
theorem ruleNameScan_eq_iff (l : List SyntaxNode) (a : String) (ha : a ≠ "") :
    ruleNameScan l = a ↔
      ∃ pre eg post, l = pre ++ eg :: post ∧
        eg.node_type = SyntaxNodeType.expressionGroup ∧
        firstWordTokenText eg.sub_nodes = some a ∧
        ∀ e ∈ pre, e.node_type = SyntaxNodeType.expressionGroup →
          firstWordTokenText e.sub_nodes = none := by
  induction l with
  | nil =>
    constructor
    · intro h
      exact absurd h.symm ha
    · rintro ⟨pre, eg, post, hl, -⟩
      exact absurd hl (by simp)
  | cons s rest ih =>
    rw [ruleNameScan]
    by_cases hse : s.node_type = SyntaxNodeType.expressionGroup
    · rw [if_pos hse]
      rcases hw : firstWordTokenText s.sub_nodes with _ | w
      · dsimp only
        constructor
        · intro h
          obtain ⟨pre, eg, post, hl, hegt, hegw, hpre⟩ := ih.1 h
          refine ⟨s :: pre, eg, post, by rw [hl]; rfl, hegt, hegw, ?_⟩
          intro e he het
          rcases List.mem_cons.1 he with rfl | he'
          · exact hw
          · exact hpre e he' het
        · rintro ⟨pre, eg, post, hl, hegt, hegw, hpre⟩
          cases pre with
          | nil =>
            injection hl with h1 h2
            subst h1
            rw [hw] at hegw
            cases hegw
          | cons p pre' =>
            injection hl with h1 h2
            subst h1
            exact ih.2 ⟨pre', eg, post, h2, hegt, hegw,
              fun e he het => hpre e (List.mem_cons_of_mem _ he) het⟩
      · dsimp only
        constructor
        · intro h
          exact ⟨[], s, rest, rfl, hse, by rw [hw, h], by simp⟩
        · rintro ⟨pre, eg, post, hl, hegt, hegw, hpre⟩
          cases pre with
          | nil =>
            injection hl with h1 h2
            subst h1
            rw [hw] at hegw
            injection hegw
          | cons p pre' =>
            injection hl with h1 h2
            subst h1
            have := hpre s (List.mem_cons_self _ _) hse
            rw [hw] at this
            cases this
    · rw [if_neg hse]
      constructor
      · intro h
        obtain ⟨pre, eg, post, hl, hegt, hegw, hpre⟩ := ih.1 h
        refine ⟨s :: pre, eg, post, by rw [hl]; rfl, hegt, hegw, ?_⟩
        intro e he het
        rcases List.mem_cons.1 he with rfl | he'
        · exact absurd het hse
        · exact hpre e he' het
      · rintro ⟨pre, eg, post, hl, hegt, hegw, hpre⟩
        cases pre with
        | nil =>
          injection hl with h1 h2
          subst h1
          exact absurd hegt hse
        | cons p pre' =>
          injection hl with h1 h2
          subst h1
          exact ih.2 ⟨pre', eg, post, h2, hegt, hegw,
            fun e he het => hpre e (List.mem_cons_of_mem _ he) het⟩

/-- Claim C5, amended.  A name is returned by `extract_function_definitions`
exactly when it is nonempty and some top-level RuleGroup yields it — the
name being the first WordToken found inside the first ExpressionGroup child
that *directly contains* a WordToken (ExpressionGroup children whose direct
children include no WordToken are skipped, falling through to later ones,
including the body); a RuleGroup with no such child contributes no
definition and raises no error. -/
theorem extract_defs_first_matching_expr (nodes : List SyntaxNode) (a : String) :
    a ∈ extract_function_definitions_r (.ok nodes) ↔
      a ≠ "" ∧ ∃ r ∈ nodes, r.node_type = SyntaxNodeType.ruleGroup ∧
        ∃ pre eg post, r.sub_nodes = pre ++ eg :: post ∧
          eg.node_type = SyntaxNodeType.expressionGroup ∧
          firstWordTokenText eg.sub_nodes = some a ∧
          ∀ e ∈ pre, e.node_type = SyntaxNodeType.expressionGroup →
            firstWordTokenText e.sub_nodes = none := by
  rw [extract_function_definitions_r, List.mem_filterMap]
  constructor
  · rintro ⟨r, hr, hf⟩
    by_cases hrt : r.node_type = SyntaxNodeType.ruleGroup
    · rw [if_pos hrt] at hf
      dsimp only at hf
      by_cases hna : extract_function_name_from_rule r = ""
      · rw [if_pos hna] at hf
        cases hf
      · rw [if_neg hna] at hf
        injection hf with hf
        subst hf
        have hdecomp := (ruleNameScan_eq_iff r.sub_nodes _ hna).1 rfl
        exact ⟨hna, r, hr, hrt, hdecomp⟩
    · rw [if_neg hrt] at hf
      cases hf
  · rintro ⟨ha, r, hr, hrt, hdecomp⟩
    refine ⟨r, hr, ?_⟩
    have hscan : extract_function_name_from_rule r = a :=
      (ruleNameScan_eq_iff r.sub_nodes a ha).2 hdecomp
    rw [if_pos hrt]
    dsimp only
    rw [hscan, if_neg ha]

/-- Claim C9, witness: expansion over the cyclic store leaves the unrelated
category untouched. -/
theorem expansion_frame_property_witness :
    dictGet [("code", [docA, synthDoc "B" (chainChunk "B" ["A"])]), ("doc", [{ text := "other d" }])]
      "doc" [] = dictGet docsSeedA "doc" [] :=
  expansion_frame_property (some (mongoFetch cycleStore)) docsSeedA 3 "doc"
    [("code", [docA, synthDoc "B" (chainChunk "B" ["A"])]), ("doc", [{ text := "other d" }])]
    (by decide) (by decide)

end MettaAssistant
